import Mathlib

/-!
Shallow embedding of `src/journal/journal-send.c` (systemd journal client
transport): the per-field wire-format encoder of `sd_journal_sendv`, the
cached socket descriptor `journal_fd`, the transport effect of one call,
and the formatted wrapper `sd_journal_printv`.

Bytes are modelled as natural numbers (the C code only ever compares field
bytes against the literals `=` and `\n`, and copies them otherwise).
Buffers become `List Nat`; an `iovec` array becomes a list of byte lists;
`memchr` becomes a first-index search.  Fallible paths return `Option` or
a negative `Int` result code exactly where the C returns a negative errno.
-/

set_option maxHeartbeats 1000000
set_option maxRecDepth 4000

namespace JournalSend

/-- A byte of a caller-supplied buffer. -/
abbrev Byte := Nat

/-- The byte value of the field separator, ASCII `=`. -/
def EQB : Byte := 61

/-- The byte value of the record delimiter, ASCII `\n` (referred to as NL). -/
def NL : Byte := 10

/-- The errno value the C code returns negated for invalid or malformed input. -/
def EINVAL : Nat := 22

/-- First index of a byte satisfying `p`, the search scheme underlying the
two `memchr` calls of `sd_journal_sendv`. -/
def findIdx (p : Byte → Bool) : List Byte → Option Nat
  | [] => none
  | b :: bs => if p b then some 0 else (findIdx p bs).map (· + 1)

/-- The C library call `memchr(base, x, len)`: index of the first occurrence
of byte `x`, or `none`. -/
def memchr (x : Byte) (l : List Byte) : Option Nat :=
  findIdx (fun b => b == x) l

/-- Little-endian base-256 digits of `k`, `m` bytes long (truncating). -/
def leBytes : Nat → Nat → List Byte
  | 0, _ => []
  | m + 1, k => (k % 256) :: leBytes m (k / 256)

/-- The 8 bytes `htole64` stores into the length-slot `l[i]`. -/
def le64 (k : Nat) : List Byte := leBytes 8 k

/-- Numeric value of a little-endian byte list (used by the wire parser). -/
def leval : List Byte → Nat
  | [] => 0
  | b :: bs => b + 256 * leval bs

/-- Read back an 8-byte little-endian unsigned integer. -/
def fromLE64 (bs : List Byte) : Nat := leval (bs.take 8)

/-- Per-field encoding step of `sd_journal_sendv` (the body of the `for`
loop, lines 138-176): locate the first `=`; fail when absent; when a `\n`
exists before the `=` fail; when the value holds a `\n` emit the five
binary-safe segments; otherwise emit the raw field and a `\n`. -/
def encodeOne (f : List Byte) : Option (List (List Byte)) :=
  match memchr EQB f with
  | none => none
  | some c =>
    match memchr NL f with
    | some nl =>
      if nl < c then none
      else some [f.take c, [NL], le64 (f.length - c - 1), f.drop (c + 1), [NL]]
    | none => some [f, [NL]]

/-- Whole-record encoding: the loop over all fields; any malformed field
makes the whole encode fail with no partial output. -/
def encode : List (List Byte) → Option (List (List Byte))
  | [] => some []
  | f :: fs =>
    match encodeOne f, encode fs with
    | some s, some rest => some (s ++ rest)
    | _, _ => none

/-- Outcome of the external `socket(2)` call: a non-negative descriptor or
an errno (positive in the operating system model). -/
inductive SockRes where
  | ok (fd : Nat)
  | err (errno : Nat)

/-- The C function `journal_fd`: the cached state is the static
`fd_plus_one` (0 = unpublished).  Returns the result (descriptor or
negative errno), the new cached state, and whether `socket(2)` was called.
Sequentially the compare-and-swap always succeeds when the cache is 0. -/
def journal_fd (fd_plus_one : Nat) (sock : SockRes) : Int × Nat × Bool :=
  if 0 < fd_plus_one then ((fd_plus_one : Int) - 1, fd_plus_one, false)
  else
    match sock with
    | .err e => (-(e : Int), fd_plus_one, true)
    | .ok fd => ((fd : Int), fd + 1, true)

/-- A run of successive `journal_fd` calls threading the cached state,
recording each result and whether that call created a socket. -/
def runFd : Nat → List SockRes → List (Int × Bool) × Nat
  | cache, [] => ([], cache)
  | cache, s :: ss =>
    let r := journal_fd cache s
    let rest := runFd r.2.1 ss
    ((r.1, r.2.2) :: rest.1, rest.2)

/-- Observable world of one transport call: the cached descriptor state and
the datagrams delivered so far (each datagram is its full byte content). -/
structure World where
  fd_plus_one : Nat
  sent : List (List Byte)

/-- The C function `sd_journal_sendv`.  `iov` is the field array (`none`
models a NULL pointer), `n` the field count, `sock` the outcome the next
`socket(2)` call would have, `sendErr` the errno of `sendmsg(2)` when it
fails (`none` = delivery succeeds).  Returns the result code, the new
world, and whether a descriptor was requested from `journal_fd`. -/
def sd_journal_sendv (iov : Option (List (List Byte))) (n : Int)
    (sock : SockRes) (sendErr : Option Nat) (w : World) :
    Int × World × Bool :=
  match iov with
  | none => (-(EINVAL : Int), w, false)
  | some fields =>
    if n ≤ 0 then (-(EINVAL : Int), w, false)
    else
      match encode (fields.take n.toNat) with
      | none => (-(EINVAL : Int), w, false)
      | some segs =>
        let fdres := journal_fd w.fd_plus_one sock
        if fdres.1 < 0 then (fdres.1, { w with fd_plus_one := fdres.2.1 }, true)
        else
          match sendErr with
          | none => (0, { fd_plus_one := fdres.2.1, sent := w.sent ++ [segs.flatten] }, true)
          | some e => (-(e : Int), { w with fd_plus_one := fdres.2.1 }, true)

/-- Value of the `LINE_MAX` limit used for the stack buffer (glibc: 2048). -/
def LINE_MAX : Nat := 2048

/-- The 8 bytes of the literal prefix `MESSAGE=`. -/
def MESSAGE_EQ : List Byte := [77, 69, 83, 83, 65, 71, 69, 61]

/-- The 7 bytes of the field name `MESSAGE` (the prefix without its `=`). -/
def MESSAGE_NAME : List Byte := [77, 69, 83, 83, 65, 71, 69]

/-- The C library `strlen`: bytes before the first NUL. -/
def strlen (l : List Byte) : Nat :=
  match memchr 0 l with
  | none => l.length
  | some i => i

/-- The C function `sd_journal_printv`.  `formatted` is the byte sequence
`vsnprintf` would produce without a size limit; the size limit of the
`char buffer[8 + LINE_MAX]` stack buffer truncates it to `LINE_MAX - 1`
bytes after the `MESSAGE=` prefix, and `IOVEC_SET_STRING` measures the
field with `strlen`. -/
def sd_journal_printv (formatted : List Byte) (sock : SockRes)
    (sendErr : Option Nat) (w : World) : Int × World × Bool :=
  let buffer := MESSAGE_EQ ++ formatted.take (LINE_MAX - 1)
  sd_journal_sendv (some [buffer.take (strlen buffer)]) 1 sock sendErr w

/-- First index of a byte that is `=` or NL: the branch point of the
documented wire grammar (an `=` starts a simple field, a NL a binary-safe
one). -/
def findSep (l : List Byte) : Option Nat :=
  findIdx (fun b => b == EQB || b == NL) l

/-- Modelled from the spec: simple-field tail parse, given the position of
the first NL of the remainder: the value runs to that NL. -/
def parseSimpleGo (name rest : List Byte) :
    Option Nat → Option ((List Byte × List Byte) × List Byte)
  | none => none
  | some k => some ((name, rest.take k), rest.drop (k + 1))

/-- Modelled from the spec: parse of one field, given the position of the
first `=`-or-NL byte: an `=` starts a simple field, a NL a binary-safe
field with an 8-byte little-endian length and a closing NL. -/
def parseFieldGo (bs : List Byte) :
    Option Nat → Option ((List Byte × List Byte) × List Byte)
  | none => none
  | some i =>
    if bs.getD i 0 = EQB then
      parseSimpleGo (bs.take i) (bs.drop (i + 1)) (memchr NL (bs.drop (i + 1)))
    else
      if (bs.drop (i + 1)).length < 8 then none
      else
        if fromLE64 ((bs.drop (i + 1)).take 8) < ((bs.drop (i + 1)).drop 8).length ∧
            ((bs.drop (i + 1)).drop 8).getD (fromLE64 ((bs.drop (i + 1)).take 8)) 0 = NL then
          some ((bs.take i,
            ((bs.drop (i + 1)).drop 8).take (fromLE64 ((bs.drop (i + 1)).take 8))),
            ((bs.drop (i + 1)).drop 8).drop (fromLE64 ((bs.drop (i + 1)).take 8) + 1))
        else none

/-- Modelled from the spec: deterministic parser for one field of the
documented wire grammar, `simple := NAME "=" VALUE "\n"` (VALUE free of
NL) or `binary_safe := NAME "\n" LEN(u64 LE) VALUE "\n"`.  Returns the
name, the value and the unconsumed remainder. -/
def parseField (bs : List Byte) : Option ((List Byte × List Byte) × List Byte) :=
  parseFieldGo bs (findSep bs)

/-- Modelled from the spec: parse a whole record, `record := field*`, with
explicit fuel (each field consumes at least one byte). -/
def parseRec : Nat → List Byte → Option (List (List Byte × List Byte))
  | _, [] => some []
  | 0, _ :: _ => none
  | fuel + 1, b :: bs =>
    match parseField (b :: bs) with
    | none => none
    | some r => (parseRec fuel r.2).map (fun l => r.1 :: l)

/-- Modelled from the spec: parse a byte stream as a record. -/
def parse (bs : List Byte) : Option (List (List Byte × List Byte)) :=
  parseRec bs.length bs

/-- Name of a field: the bytes before the first `=`. -/
def fieldName (f : List Byte) : List Byte :=
  match memchr EQB f with
  | none => []
  | some c => f.take c

/-- Value of a field: the bytes after the first `=`. -/
def fieldValue (f : List Byte) : List Byte :=
  match memchr EQB f with
  | none => f
  | some c => f.drop (c + 1)

/-- Well-formed field: holds an `=`, with no NL among the name bytes. -/
def wf (f : List Byte) : Prop :=
  ∃ c, memchr EQB f = some c ∧ NL ∉ f.take c

theorem findIdx_cons_pos {p : Byte → Bool} {b : Byte} (l : List Byte) (h : p b = true) :
    findIdx p (b :: l) = some 0 := by
  simp [findIdx, h]

theorem findIdx_cons_neg {p : Byte → Bool} {b : Byte} (l : List Byte) (h : p b = false) :
    findIdx p (b :: l) = (findIdx p l).map (· + 1) := by
  simp [findIdx, h]

theorem findIdx_eq_none_iff {p : Byte → Bool} {l : List Byte} :
    findIdx p l = none ↔ ∀ b ∈ l, p b = false := by
  induction l with
  | nil => simp [findIdx]
  | cons x xs ih =>
    cases hx : p x with
    | true => simp [findIdx, hx]
    | false => simp [findIdx, hx, ih]

theorem findIdx_lt_length {p : Byte → Bool} {l : List Byte} {i : Nat}
    (h : findIdx p l = some i) : i < l.length := by
  induction l generalizing i with
  | nil => simp [findIdx] at h
  | cons x xs ih =>
    cases hx : p x with
    | true =>
      rw [findIdx_cons_pos _ hx] at h
      simp only [Option.some_inj] at h
      simp only [List.length_cons]
      omega
    | false =>
      rw [findIdx_cons_neg _ hx] at h
      cases hj : findIdx p xs with
      | none => rw [hj] at h; simp at h
      | some j =>
        rw [hj] at h
        simp only [Option.map_some', Option.some_inj] at h
        have := ih hj
        simp only [List.length_cons]
        omega

theorem findIdx_getD {p : Byte → Bool} {l : List Byte} {i : Nat}
    (h : findIdx p l = some i) : p (l.getD i 0) = true := by
  induction l generalizing i with
  | nil => simp [findIdx] at h
  | cons x xs ih =>
    cases hx : p x with
    | true =>
      rw [findIdx_cons_pos _ hx] at h
      simp only [Option.some_inj] at h
      subst h
      simpa using hx
    | false =>
      rw [findIdx_cons_neg _ hx] at h
      cases hj : findIdx p xs with
      | none => rw [hj] at h; simp at h
      | some j =>
        rw [hj] at h
        simp only [Option.map_some', Option.some_inj] at h
        subst h
        simpa using ih hj

theorem findIdx_take {p : Byte → Bool} {l : List Byte} {i : Nat}
    (h : findIdx p l = some i) : ∀ b ∈ l.take i, p b = false := by
  induction l generalizing i with
  | nil => simp
  | cons x xs ih =>
    cases hx : p x with
    | true =>
      rw [findIdx_cons_pos _ hx] at h
      simp only [Option.some_inj] at h
      subst h
      simp
    | false =>
      rw [findIdx_cons_neg _ hx] at h
      cases hj : findIdx p xs with
      | none => rw [hj] at h; simp at h
      | some j =>
        rw [hj] at h
        simp only [Option.map_some', Option.some_inj] at h
        subst h
        intro b hb
        rw [List.take_succ_cons] at hb
        rcases List.mem_cons.mp hb with hbx | hbt
        · exact hbx ▸ hx
        · exact ih hj b hbt

theorem findIdx_append_of_none {p : Byte → Bool} {a : List Byte}
    (h : findIdx p a = none) (t : List Byte) :
    findIdx p (a ++ t) = (findIdx p t).map (· + a.length) := by
  induction a with
  | nil => cases hft : findIdx p t <;> simp [hft]
  | cons x xs ih =>
    have hx : p x = false := (findIdx_eq_none_iff.mp h) x (List.mem_cons_self x xs)
    have hxs : findIdx p xs = none :=
      findIdx_eq_none_iff.mpr fun b hb => (findIdx_eq_none_iff.mp h) b (List.mem_cons_of_mem _ hb)
    rw [List.cons_append, findIdx_cons_neg _ hx, ih hxs]
    cases hft : findIdx p t with
    | none => simp
    | some j =>
      simp only [Option.map_some', List.length_cons, Option.some_inj]
      omega

theorem findIdx_append_sep {p : Byte → Bool} {a : List Byte}
    (ha : ∀ b ∈ a, p b = false) {x : Byte} (hx : p x = true) (t : List Byte) :
    findIdx p (a ++ x :: t) = some a.length := by
  rw [findIdx_append_of_none (findIdx_eq_none_iff.mpr ha), findIdx_cons_pos _ hx]
  simp

theorem take_append_self (a t : List Byte) : (a ++ t).take a.length = a := by
  induction a with
  | nil => rfl
  | cons x xs ih => simp [ih]

theorem drop_append_self (a t : List Byte) : (a ++ t).drop a.length = t := by
  induction a with
  | nil => rfl
  | cons x xs ih => simp [ih]

theorem drop_append_cons (a : List Byte) (x : Byte) (t : List Byte) :
    (a ++ x :: t).drop (a.length + 1) = t := by
  induction a with
  | nil => rfl
  | cons y ys ih => simp [ih]

theorem getD_append_self (a : List Byte) (x : Byte) (t : List Byte) (d : Byte) :
    (a ++ x :: t).getD a.length d = x := by
  induction a with
  | nil => rfl
  | cons y ys ih => simpa using ih

theorem getD_mem_take {l : List Byte} {i n : Nat} (hi : i < n) (hl : i < l.length) :
    l.getD i 0 ∈ l.take n := by
  induction l generalizing i n with
  | nil => simp at hl
  | cons x xs ih =>
    cases i with
    | zero =>
      cases n with
      | zero => omega
      | succ m => simp
    | succ j =>
      cases n with
      | zero => omega
      | succ m =>
        rw [List.getD_cons_succ, List.take_succ_cons]
        exact List.mem_cons_of_mem _ (ih (by omega) (by simpa using hl))

theorem memchr_decomp {x : Byte} {f : List Byte} {i : Nat} (h : memchr x f = some i) :
    f = f.take i ++ x :: f.drop (i + 1) ∧ x ∉ f.take i := by
  have hlt : i < f.length := findIdx_lt_length h
  have hget : f.getD i 0 = x := by
    have := findIdx_getD h
    simpa using this
  constructor
  · conv_lhs => rw [← List.take_append_drop i f]
    congr 1
    rw [List.drop_eq_getElem_cons hlt, ← hget, List.getD_eq_getElem _ _ hlt]
  · intro hmem
    rcases List.mem_take_iff_getElem.mp hmem with ⟨j, hj, hjx⟩
    have hjf : j < f.length := by
      have := j.lt_of_lt_of_le (hj.trans_le (min_le_right _ _)) (le_refl _)
      exact this
    have hjlt : j < i := by
      have := hj.trans_le (min_le_left _ _)
      exact this
    have := findIdx_take h (f.getD j 0) (getD_mem_take hjlt hjf)
    rw [List.getD_eq_getElem _ _ hjf, hjx] at this
    simp at this

theorem beq_false_of_not_mem {x : Byte} {a : List Byte} (h : x ∉ a) :
    ∀ b ∈ a, (b == x) = false := by
  intro b hb
  rw [beq_eq_false_iff_ne]
  rintro rfl
  exact h hb

theorem encodeOne_simple {A V : List Byte} (hAe : EQB ∉ A) (hAn : NL ∉ A) (hV : NL ∉ V) :
    encodeOne (A ++ EQB :: V) = some [A ++ EQB :: V, [NL]] := by
  have h1 : memchr EQB (A ++ EQB :: V) = some A.length :=
    findIdx_append_sep (beq_false_of_not_mem hAe) (by simp) V
  have h2 : memchr NL (A ++ EQB :: V) = none := by
    rw [memchr, findIdx_eq_none_iff]
    intro b hb
    rw [beq_eq_false_iff_ne]
    rintro rfl
    rcases List.mem_append.mp hb with hA | hEV
    · exact hAn hA
    · rcases List.mem_cons.mp hEV with hE | hVv
      · exact absurd hE (by decide)
      · exact hV hVv
  simp only [encodeOne, h1, h2]

theorem encodeOne_binary {A V : List Byte} (hAe : EQB ∉ A) (hAn : NL ∉ A) (hV : NL ∈ V) :
    encodeOne (A ++ EQB :: V) = some [A, [NL], le64 V.length, V, [NL]] := by
  have h1 : memchr EQB (A ++ EQB :: V) = some A.length :=
    findIdx_append_sep (beq_false_of_not_mem hAe) (by simp) V
  obtain ⟨v, hv⟩ : ∃ v, memchr NL V = some v := by
    cases hv : memchr NL V with
    | some v => exact ⟨v, rfl⟩
    | none =>
      have := findIdx_eq_none_iff.mp hv NL hV
      simp at this
  have h2 : memchr NL (A ++ EQB :: V) = some (v + 1 + A.length) := by
    show findIdx (fun b => b == NL) (A ++ EQB :: V) = some (v + 1 + A.length)
    rw [findIdx_append_of_none (findIdx_eq_none_iff.mpr (beq_false_of_not_mem hAn)),
      findIdx_cons_neg _ (by decide), show findIdx (fun b => b == NL) V = some v from hv]
    rfl
  have hnc : ¬ v + 1 + A.length < A.length := by omega
  have hlen : (A ++ EQB :: V).length - A.length - 1 = V.length := by
    simp only [List.length_append, List.length_cons]
    omega
  have htake : (A ++ EQB :: V).take A.length = A := take_append_self A (EQB :: V)
  have hdrop : (A ++ EQB :: V).drop (A.length + 1) = V := drop_append_cons A EQB V
  simp only [encodeOne, h1, h2, if_neg hnc, hlen, htake, hdrop]

theorem wf_decomp {f : List Byte} (h : wf f) :
    ∃ A V, f = A ++ EQB :: V ∧ EQB ∉ A ∧ NL ∉ A ∧ fieldName f = A ∧ fieldValue f = V := by
  obtain ⟨c, hc, hnl⟩ := h
  obtain ⟨hdec, hne⟩ := memchr_decomp hc
  exact ⟨f.take c, f.drop (c + 1), hdec, hne, hnl,
    by simp only [fieldName, hc], by simp only [fieldValue, hc]⟩

theorem encodeOne_eq_none_iff {f : List Byte} :
    encodeOne f = none ↔
      memchr EQB f = none ∨
        ∃ c nl, memchr EQB f = some c ∧ memchr NL f = some nl ∧ nl < c := by
  cases hc : memchr EQB f with
  | none => simp [encodeOne, hc]
  | some c =>
    cases hn : memchr NL f with
    | none => simp [encodeOne, hc, hn]
    | some nl =>
      by_cases hlt : nl < c
      · simp [encodeOne, hc, hn, hlt]
      · simp [encodeOne, hc, hn, hlt]

theorem encode_cons_none_left {f : List Byte} {fs : List (List Byte)}
    (h : encodeOne f = none) : encode (f :: fs) = none := by
  cases hfs : encode fs <;> simp [encode, h, hfs]

theorem encode_cons_some_left {f : List Byte} {fs : List (List Byte)} {s : List (List Byte)}
    (h : encodeOne f = some s) :
    encode (f :: fs) = (encode fs).map (fun rest => s ++ rest) := by
  cases hfs : encode fs <;> simp [encode, h, hfs]

theorem encode_eq_none_iff {fs : List (List Byte)} :
    encode fs = none ↔ ∃ f ∈ fs, encodeOne f = none := by
  induction fs with
  | nil => simp [encode]
  | cons g gs ih =>
    cases hg : encodeOne g with
    | none =>
      constructor
      · intro _; exact ⟨g, List.mem_cons_self g gs, hg⟩
      · intro _; exact encode_cons_none_left hg
    | some s =>
      rw [encode_cons_some_left hg, Option.map_eq_none', ih]
      constructor
      · rintro ⟨f, hf, hfn⟩
        exact ⟨f, List.mem_cons_of_mem _ hf, hfn⟩
      · rintro ⟨f, hf, hfn⟩
        rcases List.mem_cons.mp hf with rfl | hf'
        · rw [hg] at hfn; cases hfn
        · exact ⟨f, hf', hfn⟩

theorem encodeOne_seg_count {f : List Byte} {s : List (List Byte)}
    (h : encodeOne f = some s) : s.length = 2 ∨ s.length = 5 := by
  cases hc : memchr EQB f with
  | none => simp [encodeOne, hc] at h
  | some c =>
    cases hn : memchr NL f with
    | none =>
      simp only [encodeOne, hc, hn, Option.some_inj] at h
      left
      rw [← h]
      rfl
    | some nl =>
      by_cases hlt : nl < c
      · simp [encodeOne, hc, hn, hlt] at h
      · simp only [encodeOne, hc, hn, if_neg hlt, Option.some_inj] at h
        right
        rw [← h]
        rfl

theorem encode_seg_count_le {fs : List (List Byte)} {segs : List (List Byte)}
    (h : encode fs = some segs) : segs.length ≤ 5 * fs.length := by
  induction fs generalizing segs with
  | nil =>
    simp only [encode, Option.some_inj] at h
    subst h
    simp
  | cons g gs ih =>
    cases hg : encodeOne g with
    | none => rw [encode_cons_none_left hg] at h; cases h
    | some s =>
      rw [encode_cons_some_left hg] at h
      cases hgs : encode gs with
      | none => rw [hgs] at h; cases h
      | some rest =>
        rw [hgs] at h
        simp only [Option.map_some', Option.some_inj] at h
        subst h
        have h2 := encodeOne_seg_count hg
        have h3 := ih hgs
        simp only [List.length_append, List.length_cons]
        rcases h2 with h2 | h2 <;> omega

/-- C1 as literally stated is false: this field contains an `=` and its
value holds a NL, yet the encoder rejects it (its first NL precedes the
first `=`), emitting nothing instead of the five binary-safe segments. -/
theorem encode_binary_claim_cex :
    memchr EQB [97, 10, 98, 61, 99, 10, 100] = some 3 ∧
      NL ∈ [97, 10, 98, 61, 99, 10, 100].drop 4 ∧
      encodeOne [97, 10, 98, 61, 99, 10, 100] = none := by
  decide

/-- C1 (amended): a field whose bytes contain an `=`, whose value (bytes
after the first `=`) holds at least one NL, and whose name (bytes before
the first `=`) holds no NL, is encoded as exactly the five segments: name,
a one-byte NL, the 8-byte little-endian byte length of the value, the
value verbatim, and a trailing one-byte NL. -/
theorem encode_binary_safe (f : List Byte) (c : Nat)
    (hc : memchr EQB f = some c) (hnl : NL ∈ f.drop (c + 1)) (hname : NL ∉ f.take c) :
    encodeOne f = some [f.take c, [NL], le64 (f.drop (c + 1)).length, f.drop (c + 1), [NL]] := by
  obtain ⟨hdec, hne⟩ := memchr_decomp hc
  conv_lhs => rw [hdec]
  exact encodeOne_binary hne hname hnl

theorem encode_binary_safe_witness :
    encodeOne [65, 61, 98, 10, 99] = some [[65], [NL], le64 3, [98, 10, 99], [NL]] :=
  encode_binary_safe [65, 61, 98, 10, 99] 1 (by decide) (by decide) (by decide)

/-- C2 as literally stated is false: this field contains an `=` and its
value holds no NL, yet the encoder rejects it (a NL precedes the first
`=`), emitting nothing instead of the raw field plus NL. -/
theorem encode_simple_claim_cex :
    memchr EQB [97, 10, 98, 61, 99] = some 3 ∧
      NL ∉ [97, 10, 98, 61, 99].drop 4 ∧
      encodeOne [97, 10, 98, 61, 99] = none := by
  decide

/-- C2 (amended): a field whose bytes contain an `=`, whose value (bytes
after the first `=`) holds no NL, and whose name (bytes before the first
`=`) holds no NL, is encoded as exactly two segments: the raw field bytes
and a one-byte NL, i.e. `NAME=VALUE` followed by NL. -/
theorem encode_simple (f : List Byte) (c : Nat)
    (hc : memchr EQB f = some c) (hnl : NL ∉ f.drop (c + 1)) (hname : NL ∉ f.take c) :
    encodeOne f = some [f, [NL]] := by
  obtain ⟨hdec, hne⟩ := memchr_decomp hc
  conv_lhs => rw [hdec]
  conv_rhs => rw [hdec]
  exact encodeOne_simple hne hname hnl

theorem encode_simple_witness :
    encodeOne [65, 61, 98, 99] = some [[65, 61, 98, 99], [NL]] :=
  encode_simple [65, 61, 98, 99] 1 (by decide) (by decide) (by decide)

/-- C4: the encoder fails exactly on a field with no `=` byte or whose
first NL precedes its first `=`; the failure of any field makes the whole
encode return nothing (no partial segments), regardless of the fields
after the offending one. -/
theorem encode_malformed_iff :
    (∀ f, encodeOne f = none ↔
      memchr EQB f = none ∨
        ∃ c nl, memchr EQB f = some c ∧ memchr NL f = some nl ∧ nl < c) ∧
    (∀ fs, encode fs = none ↔ ∃ f ∈ fs, encodeOne f = none) ∧
    (∀ pre f post, encodeOne f = none → encode (pre ++ f :: post) = none) := by
  refine ⟨fun f => encodeOne_eq_none_iff, fun fs => encode_eq_none_iff, ?_⟩
  intro pre f post h
  exact encode_eq_none_iff.mpr ⟨f, by simp, h⟩

theorem encode_malformed_iff_witness :
    encode [[97, 61, 98], [110, 111, 118, 97, 108, 117, 101], [99, 61]] = none :=
  encode_malformed_iff.2.2 [[97, 61, 98]] [110, 111, 118, 97, 108, 117, 101] [[99, 61]]
    (by decide)

/-- C9: each accepted field contributes exactly 2 (simple) or 5
(binary-safe) segments, so a list of `n` fields yields at most `5 * n`
segments: every write into the stack arrays of `5 * n` segment slots and
`n` length slots stays in bounds. -/
theorem encode_segment_bound :
    (∀ f s, encodeOne f = some s → s.length = 2 ∨ s.length = 5) ∧
    (∀ fs segs, encode fs = some segs → segs.length ≤ 5 * fs.length) :=
  ⟨fun _ _ h => encodeOne_seg_count h, fun _ _ h => encode_seg_count_le h⟩

theorem encode_segment_bound_witness :
    ((2 : Nat) = 2 ∨ (2 : Nat) = 5) ∧ (7 : Nat) ≤ 5 * 2 :=
  ⟨encode_segment_bound.1 [97, 61] [[97, 61], [NL]] (by decide),
    encode_segment_bound.2 [[97, 61], [98, 61, 99, 10, 100]]
      [[97, 61], [NL], [98], [NL], le64 3, [99, 10, 100], [NL]] (by decide)⟩

/-- C5: a NULL field array or a non-positive field count makes
`sd_journal_sendv` fail with `-EINVAL`, leaving the world untouched (no
bytes sent) and without requesting a descriptor from `journal_fd`. -/
theorem sendv_invalid_args (iov : Option (List (List Byte))) (n : Int)
    (sock : SockRes) (se : Option Nat) (w : World) (h : iov = none ∨ n ≤ 0) :
    sd_journal_sendv iov n sock se w = (-(EINVAL : Int), w, false) := by
  rcases h with rfl | hn
  · rfl
  · cases iov with
    | none => rfl
    | some fields => simp [sd_journal_sendv, if_pos hn]

theorem sendv_invalid_args_witness :
    sd_journal_sendv (some [[97, 61]]) 0 (SockRes.ok 3) none ⟨0, []⟩ =
      (-(EINVAL : Int), ⟨0, []⟩, false) :=
  sendv_invalid_args (some [[97, 61]]) 0 (SockRes.ok 3) none ⟨0, []⟩ (Or.inr (by decide))

/-- C6: every successful `journal_fd` call publishes the returned
descriptor plus one into the cache, and once the cache is published every
later call of any run returns that same descriptor with no `socket(2)`
call and the cache unchanged. -/
theorem journal_fd_singleton :
    (∀ cache sock r cache' b, (∀ e, sock = SockRes.err e → 0 < e) →
      journal_fd cache sock = (r, cache', b) → 0 ≤ r → cache' = r.toNat + 1) ∧
    (∀ d ss, runFd (d + 1) ss = (ss.map fun _ => ((d : Int), false), d + 1)) := by
  constructor
  · intro cache sock r cache' b hpos h hr
    cases cache with
    | zero =>
      unfold journal_fd at h
      rw [if_neg (lt_irrefl 0)] at h
      cases sock with
      | ok fd =>
        simp only [Prod.mk.injEq] at h
        obtain ⟨h1, h2, _⟩ := h
        omega
      | err e =>
        have he := hpos e rfl
        simp only [Prod.mk.injEq] at h
        obtain ⟨h1, _, _⟩ := h
        omega
    | succ k =>
      unfold journal_fd at h
      rw [if_pos (Nat.succ_pos k)] at h
      simp only [Prod.mk.injEq] at h
      obtain ⟨h1, h2, _⟩ := h
      omega
  · intro d ss
    induction ss with
    | nil => rfl
    | cons s ss ih =>
      have hstep : journal_fd (d + 1) s = ((d : Int), d + 1, false) := by
        unfold journal_fd
        rw [if_pos (Nat.succ_pos d),
          show ((d + 1 : Nat) : Int) - 1 = (d : Int) by push_cast; ring]
      simp [runFd, hstep, ih]

theorem journal_fd_singleton_witness : (6 : Nat) = (5 : Int).toNat + 1 :=
  journal_fd_singleton.1 0 (SockRes.ok 5) 5 6 true (fun _ he => nomatch he)
    (by decide) (by decide)

/-- C7: when the cache is unpublished and `socket(2)` fails, `journal_fd`
returns the negated OS error code and leaves the cache unpublished; and
every call made with an unpublished cache attempts socket creation. -/
theorem journal_fd_failure_not_cached :
    (∀ e, journal_fd 0 (SockRes.err e) = (-(e : Int), 0, true)) ∧
    (∀ sock, (journal_fd 0 sock).2.2 = true) := by
  constructor
  · intro e; rfl
  · intro sock; cases sock <;> rfl

/-- C8: one call of `sd_journal_sendv` appends exactly one datagram,
holding the whole encoded record, when it returns success, and appends
none when it returns any failure. -/
theorem sendv_datagram_effect (iov : Option (List (List Byte))) (n : Int)
    (sock : SockRes) (se : Option Nat) (w : World) (hse : se ≠ some 0) :
    ((sd_journal_sendv iov n sock se w).1 = 0 →
      ∃ fields segs, iov = some fields ∧ encode (fields.take n.toNat) = some segs ∧
        (sd_journal_sendv iov n sock se w).2.1.sent = w.sent ++ [segs.flatten]) ∧
    ((sd_journal_sendv iov n sock se w).1 ≠ 0 →
      (sd_journal_sendv iov n sock se w).2.1.sent = w.sent) := by
  cases iov with
  | none =>
    refine ⟨fun h0 => ?_, fun _ => rfl⟩
    simp [sd_journal_sendv, EINVAL] at h0
  | some fields =>
    by_cases hn : n ≤ 0
    · have hv : sd_journal_sendv (some fields) n sock se w = (-(EINVAL : Int), w, false) := by
        simp [sd_journal_sendv, if_pos hn]
      constructor
      · intro h0; rw [hv] at h0; simp [EINVAL] at h0
      · intro _; rw [hv]
    · cases henc : encode (fields.take n.toNat) with
      | none =>
        have hv : sd_journal_sendv (some fields) n sock se w = (-(EINVAL : Int), w, false) := by
          simp [sd_journal_sendv, if_neg hn, henc]
        constructor
        · intro h0; rw [hv] at h0; simp [EINVAL] at h0
        · intro _; rw [hv]
      | some segs =>
        by_cases hfd : (journal_fd w.fd_plus_one sock).1 < 0
        · have hv : sd_journal_sendv (some fields) n sock se w =
              ((journal_fd w.fd_plus_one sock).1,
                { w with fd_plus_one := (journal_fd w.fd_plus_one sock).2.1 }, true) := by
            simp [sd_journal_sendv, if_neg hn, henc, if_pos hfd]
          constructor
          · intro h0; rw [hv] at h0; simp only at h0; omega
          · intro _; rw [hv]
        · cases se with
          | none =>
            have hv : sd_journal_sendv (some fields) n sock none w =
                (0, ⟨(journal_fd w.fd_plus_one sock).2.1, w.sent ++ [segs.flatten]⟩, true) := by
              simp [sd_journal_sendv, if_neg hn, henc, if_neg hfd]
            constructor
            · intro _
              exact ⟨fields, segs, rfl, henc, by rw [hv]⟩
            · intro h0; rw [hv] at h0; exact absurd rfl h0
          | some e =>
            have he : e ≠ 0 := fun h => hse (by rw [h])
            have hv : sd_journal_sendv (some fields) n sock (some e) w =
                (-(e : Int),
                  { w with fd_plus_one := (journal_fd w.fd_plus_one sock).2.1 }, true) := by
              simp [sd_journal_sendv, if_neg hn, henc, if_neg hfd]
            constructor
            · intro h0; rw [hv] at h0; simp only at h0; omega
            · intro _; rw [hv]

theorem sendv_datagram_effect_witness :
    ∃ fields segs, (some [[77, 61]] : Option (List (List Byte))) = some fields ∧
      encode (fields.take (1 : Int).toNat) = some segs ∧
      (sd_journal_sendv (some [[77, 61]]) 1 (SockRes.ok 3) none ⟨0, []⟩).2.1.sent =
        (⟨0, []⟩ : World).sent ++ [segs.flatten] :=
  (sendv_datagram_effect (some [[77, 61]]) 1 (SockRes.ok 3) none ⟨0, []⟩ (by decide)).1
    (by decide)

/-- C10: a formatted message longer than the remaining buffer space is
silently truncated to `LINE_MAX - 1` bytes after the `MESSAGE=` prefix and
the truncated field is sent successfully: the call returns 0 and the
delivered datagram is the truncated `MESSAGE=` field, in the simple
encoding when the truncated text holds no NL and in the binary-safe
encoding when it does. -/
theorem printv_truncates (formatted : List Byte) (sock : SockRes) (w : World)
    (_hlong : LINE_MAX - 1 < formatted.length) (h0 : (0 : Byte) ∉ formatted)
    (hpub : 0 < w.fd_plus_one) :
    sd_journal_printv formatted sock none w =
      (0, ⟨w.fd_plus_one,
        w.sent ++ [if NL ∈ formatted.take (LINE_MAX - 1) then
            MESSAGE_NAME ++ [NL] ++ le64 (formatted.take (LINE_MAX - 1)).length ++
              formatted.take (LINE_MAX - 1) ++ [NL]
          else MESSAGE_EQ ++ formatted.take (LINE_MAX - 1) ++ [NL]]⟩, true) := by
  have hT0 : (0 : Byte) ∉ formatted.take (LINE_MAX - 1) :=
    fun h => h0 (List.take_subset _ _ h)
  have hm0 : memchr 0 (MESSAGE_EQ ++ formatted.take (LINE_MAX - 1)) = none := by
    rw [memchr, findIdx_eq_none_iff]
    intro b hb
    rw [beq_eq_false_iff_ne]
    rintro rfl
    rcases List.mem_append.mp hb with h | h
    · exact absurd h (by decide)
    · exact hT0 h
  have hstr : strlen (MESSAGE_EQ ++ formatted.take (LINE_MAX - 1)) =
      (MESSAGE_EQ ++ formatted.take (LINE_MAX - 1)).length := by
    simp only [strlen, hm0]
  have htake : (MESSAGE_EQ ++ formatted.take (LINE_MAX - 1)).take
      (strlen (MESSAGE_EQ ++ formatted.take (LINE_MAX - 1))) =
      MESSAGE_EQ ++ formatted.take (LINE_MAX - 1) := by
    rw [hstr, List.take_length]
  have hsplit : MESSAGE_EQ ++ formatted.take (LINE_MAX - 1) =
      MESSAGE_NAME ++ EQB :: formatted.take (LINE_MAX - 1) := rfl
  obtain ⟨d, hd⟩ : ∃ d, w.fd_plus_one = d + 1 := ⟨w.fd_plus_one - 1, by omega⟩
  have hfd : journal_fd w.fd_plus_one sock = ((d : Int), d + 1, false) := by
    rw [hd]
    unfold journal_fd
    rw [if_pos (Nat.succ_pos d),
      show ((d + 1 : Nat) : Int) - 1 = (d : Int) by push_cast; ring]
  by_cases hnl : NL ∈ formatted.take (LINE_MAX - 1)
  · have henc1 : encodeOne (MESSAGE_EQ ++ formatted.take (LINE_MAX - 1)) =
        some [MESSAGE_NAME, [NL], le64 (formatted.take (LINE_MAX - 1)).length,
          formatted.take (LINE_MAX - 1), [NL]] := by
      rw [hsplit]
      exact encodeOne_binary (by decide) (by decide) hnl
    have henc : encode [MESSAGE_EQ ++ formatted.take (LINE_MAX - 1)] =
        some [MESSAGE_NAME, [NL], le64 (formatted.take (LINE_MAX - 1)).length,
          formatted.take (LINE_MAX - 1), [NL]] := by
      rw [encode_cons_some_left henc1]
      simp [encode]
    rw [if_pos hnl]
    show sd_journal_sendv
      (some [(MESSAGE_EQ ++ formatted.take (LINE_MAX - 1)).take
        (strlen (MESSAGE_EQ ++ formatted.take (LINE_MAX - 1)))]) 1 sock none w = _
    rw [htake]
    simp only [sd_journal_sendv, henc, hfd]
    rw [if_neg (by decide : ¬ (1 : Int) ≤ 0)]
    simp only [Int.toNat_one, List.take_succ_cons, List.take_nil, henc]
    rw [if_neg (by simp : ¬ (((d : Int), d + 1, false) : Int × Nat × Bool).1 < 0)]
    simp only [List.flatten, List.append_nil, List.append_assoc]
    rw [← hd]
  · have henc1 : encodeOne (MESSAGE_EQ ++ formatted.take (LINE_MAX - 1)) =
        some [MESSAGE_EQ ++ formatted.take (LINE_MAX - 1), [NL]] := by
      rw [hsplit]
      exact encodeOne_simple (by decide) (by decide) hnl
    have henc : encode [MESSAGE_EQ ++ formatted.take (LINE_MAX - 1)] =
        some [MESSAGE_EQ ++ formatted.take (LINE_MAX - 1), [NL]] := by
      rw [encode_cons_some_left henc1]
      simp [encode]
    rw [if_neg hnl]
    show sd_journal_sendv
      (some [(MESSAGE_EQ ++ formatted.take (LINE_MAX - 1)).take
        (strlen (MESSAGE_EQ ++ formatted.take (LINE_MAX - 1)))]) 1 sock none w = _
    rw [htake]
    simp only [sd_journal_sendv, henc, hfd]
    rw [if_neg (by decide : ¬ (1 : Int) ≤ 0)]
    simp only [Int.toNat_one, List.take_succ_cons, List.take_nil, henc]
    rw [if_neg (by simp : ¬ (((d : Int), d + 1, false) : Int × Nat × Bool).1 < 0)]
    simp only [List.flatten, List.append_nil, List.append_assoc]
    rw [← hd]

theorem printv_truncates_witness :
    sd_journal_printv (NL :: List.replicate 2047 65) (SockRes.ok 3) none ⟨1, []⟩ =
      (0, ⟨1, [MESSAGE_NAME ++ [NL] ++ le64 2047 ++
        (NL :: List.replicate 2046 65) ++ [NL]]⟩, true) := by
  have hlong : LINE_MAX - 1 < (NL :: List.replicate 2047 (65 : Byte)).length := by
    rw [List.length_cons, List.length_replicate]
    decide
  have h0 : (0 : Byte) ∉ NL :: List.replicate 2047 (65 : Byte) := by
    intro hmem
    rcases List.mem_cons.mp hmem with h | h
    · exact absurd h (by decide)
    · rw [List.mem_replicate] at h
      exact absurd h.2 (by decide)
  have h := printv_truncates (NL :: List.replicate 2047 65) (SockRes.ok 3) ⟨1, []⟩
    hlong h0 (by decide)
  rw [show LINE_MAX - 1 = 2046 + 1 from by decide, List.take_succ_cons,
    List.take_replicate, show min 2046 2047 = 2046 from by decide] at h
  rw [h, if_pos (List.mem_cons_self NL (List.replicate 2046 65)), List.nil_append,
    show (NL :: List.replicate 2046 (65 : Byte)).length = 2047 from by
      rw [List.length_cons, List.length_replicate]]

theorem length_leBytes (m k : Nat) : (leBytes m k).length = m := by
  induction m generalizing k with
  | zero => rfl
  | succ j ih => simp [leBytes, ih]

theorem leval_leBytes (m k : Nat) : leval (leBytes m k) = k % 256 ^ m := by
  induction m generalizing k with
  | zero => simp [leBytes, leval, Nat.mod_one]
  | succ j ih =>
    rw [leBytes, leval, ih, pow_succ', Nat.mod_mul]

theorem fromLE64_le64 {k : Nat} (h : k < 2 ^ 64) : fromLE64 (le64 k) = k := by
  have hlen : (leBytes 8 k).length = 8 := length_leBytes 8 k
  calc leval ((leBytes 8 k).take 8)
      = leval ((leBytes 8 k).take (leBytes 8 k).length) := by rw [hlen]
    _ = leval (leBytes 8 k) := by rw [List.take_length]
    _ = k % 256 ^ 8 := leval_leBytes 8 k
    _ = k := by rw [show (256 : Nat) ^ 8 = 2 ^ 64 by norm_num, Nat.mod_eq_of_lt h]

theorem parseField_simple {A V : List Byte} (hAe : EQB ∉ A) (hAn : NL ∉ A) (hV : NL ∉ V)
    (tail : List Byte) :
    parseField (A ++ EQB :: (V ++ NL :: tail)) = some ((A, V), tail) := by
  have hsep : findSep (A ++ EQB :: (V ++ NL :: tail)) = some A.length := by
    show findIdx _ _ = _
    refine findIdx_append_sep ?_ (by decide) _
    intro b hb
    have h1 : b ≠ EQB := fun h => hAe (h ▸ hb)
    have h2 : b ≠ NL := fun h => hAn (h ▸ hb)
    simp [h1, h2]
  have hget : (A ++ EQB :: (V ++ NL :: tail)).getD A.length 0 = EQB :=
    getD_append_self A EQB _ 0
  have hdrop : (A ++ EQB :: (V ++ NL :: tail)).drop (A.length + 1) = V ++ NL :: tail :=
    drop_append_cons A EQB _
  have htakeA : (A ++ EQB :: (V ++ NL :: tail)).take A.length = A :=
    take_append_self A _
  have hmem : memchr NL (V ++ NL :: tail) = some V.length := by
    show findIdx _ _ = _
    refine findIdx_append_sep ?_ (by decide) _
    intro b hb
    have h2 : b ≠ NL := fun h => hV (h ▸ hb)
    simp [h2]
  have htakeV : (V ++ NL :: tail).take V.length = V := take_append_self V _
  have hdropV : (V ++ NL :: tail).drop (V.length + 1) = tail := drop_append_cons V NL tail
  show parseFieldGo _ (findSep _) = _
  rw [hsep]
  simp only [parseFieldGo]
  rw [if_pos hget, htakeA, hdrop, hmem]
  simp only [parseSimpleGo]
  rw [htakeV, hdropV]

theorem parseField_binary {A V : List Byte} (hAe : EQB ∉ A) (hAn : NL ∉ A)
    (hVlen : V.length < 2 ^ 64) (tail : List Byte) :
    parseField (A ++ NL :: (le64 V.length ++ (V ++ NL :: tail))) = some ((A, V), tail) := by
  have hsep : findSep (A ++ NL :: (le64 V.length ++ (V ++ NL :: tail))) = some A.length := by
    show findIdx _ _ = _
    refine findIdx_append_sep ?_ (by decide) _
    intro b hb
    have h1 : b ≠ EQB := fun h => hAe (h ▸ hb)
    have h2 : b ≠ NL := fun h => hAn (h ▸ hb)
    simp [h1, h2]
  have hget : (A ++ NL :: (le64 V.length ++ (V ++ NL :: tail))).getD A.length 0 = NL :=
    getD_append_self A NL _ 0
  have hcond : ¬ (A ++ NL :: (le64 V.length ++ (V ++ NL :: tail))).getD A.length 0 = EQB := by
    rw [hget]
    decide
  have hdrop : (A ++ NL :: (le64 V.length ++ (V ++ NL :: tail))).drop (A.length + 1) =
      le64 V.length ++ (V ++ NL :: tail) :=
    drop_append_cons A NL _
  have htakeA : (A ++ NL :: (le64 V.length ++ (V ++ NL :: tail))).take A.length = A :=
    take_append_self A _
  have hlen8 : (le64 V.length).length = 8 := length_leBytes 8 _
  have hrestlen : ¬ (le64 V.length ++ (V ++ NL :: tail)).length < 8 := by
    rw [List.length_append, hlen8]
    omega
  have htake8 : (le64 V.length ++ (V ++ NL :: tail)).take 8 = le64 V.length := by
    rw [show (8 : Nat) = (le64 V.length).length from hlen8.symm]
    exact take_append_self _ _
  have hdrop8 : (le64 V.length ++ (V ++ NL :: tail)).drop 8 = V ++ NL :: tail := by
    rw [show (8 : Nat) = (le64 V.length).length from hlen8.symm]
    exact drop_append_self _ _
  have hfrom : fromLE64 (le64 V.length) = V.length := fromLE64_le64 hVlen
  have hbodyget : (V ++ NL :: tail).getD V.length 0 = NL := getD_append_self V NL tail 0
  have hbodylen : V.length < (V ++ NL :: tail).length := by
    rw [List.length_append, List.length_cons]
    omega
  have htakeV : (V ++ NL :: tail).take V.length = V := take_append_self V _
  have hdropV : (V ++ NL :: tail).drop (V.length + 1) = tail := drop_append_cons V NL tail
  show parseFieldGo _ (findSep _) = _
  rw [hsep]
  simp only [parseFieldGo]
  rw [if_neg hcond, hdrop, if_neg hrestlen, htake8, hdrop8, hfrom,
    if_pos ⟨hbodylen, hbodyget⟩, htakeA, htakeV, hdropV]

theorem parseRec_succ {fuel : Nat} {l : List Byte} (h : l ≠ []) :
    parseRec (fuel + 1) l =
      match parseField l with
      | none => none
      | some r => (parseRec fuel r.2).map (fun x => r.1 :: x) := by
  cases l with
  | nil => exact absurd rfl h
  | cons b bs => rfl

theorem encodeOne_flatten_pos {f : List Byte} {s : List (List Byte)}
    (h : encodeOne f = some s) : 1 ≤ s.flatten.length := by
  cases hc : memchr EQB f with
  | none => simp [encodeOne, hc] at h
  | some c =>
    cases hn : memchr NL f with
    | none =>
      simp only [encodeOne, hc, hn, Option.some_inj] at h
      subst h
      simp
    | some nl =>
      by_cases hlt : nl < c
      · simp [encodeOne, hc, hn, hlt] at h
      · simp only [encodeOne, hc, hn, if_neg hlt, Option.some_inj] at h
        subst h
        simp only [List.flatten, List.append_nil, List.length_append, List.length_cons,
          List.length_nil]
        omega

theorem encode_flatten_ge {fs : List (List Byte)} {segs : List (List Byte)}
    (h : encode fs = some segs) : fs.length ≤ segs.flatten.length := by
  induction fs generalizing segs with
  | nil => simp
  | cons g gs ih =>
    cases hg : encodeOne g with
    | none => rw [encode_cons_none_left hg] at h; cases h
    | some s =>
      rw [encode_cons_some_left hg] at h
      cases hgs : encode gs with
      | none => rw [hgs] at h; cases h
      | some rest =>
        rw [hgs] at h
        simp only [Option.map_some', Option.some_inj] at h
        subst h
        have h1 := encodeOne_flatten_pos hg
        have h2 := ih hgs
        rw [List.flatten_append, List.length_append]
        simp only [List.length_cons]
        omega

theorem encode_wf_some {fs : List (List Byte)} (hall : ∀ f ∈ fs, wf f) :
    ∃ segs, encode fs = some segs := by
  induction fs with
  | nil => exact ⟨[], rfl⟩
  | cons g gs ih =>
    obtain ⟨segs, hsegs⟩ := ih fun f hf => hall f (List.mem_cons_of_mem _ hf)
    obtain ⟨A, V, hdec, hAe, hAn, _, _⟩ := wf_decomp (hall g (List.mem_cons_self g gs))
    by_cases hVnl : NL ∈ V
    · refine ⟨[A, [NL], le64 V.length, V, [NL]] ++ segs, ?_⟩
      rw [encode_cons_some_left (by rw [hdec]; exact encodeOne_binary hAe hAn hVnl), hsegs]
      rfl
    · refine ⟨[g, [NL]] ++ segs, ?_⟩
      have hone : encodeOne g = some [g, [NL]] := by
        conv_lhs => rw [hdec]
        conv_rhs => rw [hdec]
        exact encodeOne_simple hAe hAn hVnl
      rw [encode_cons_some_left hone, hsegs]
      rfl

theorem parseRec_encode (fs : List (List Byte)) :
    ∀ fuel segs, fs.length ≤ fuel → (∀ f ∈ fs, wf f ∧ f.length < 2 ^ 64) →
      encode fs = some segs →
      parseRec fuel segs.flatten = some (fs.map fun f => (fieldName f, fieldValue f)) := by
  induction fs with
  | nil =>
    intro fuel segs _ _ h
    simp only [encode, Option.some_inj] at h
    subst h
    cases fuel <;> simp [parseRec]
  | cons g gs ih =>
    intro fuel segs hfuel hall h
    obtain ⟨hwf, hglen⟩ := hall g (List.mem_cons_self g gs)
    obtain ⟨A, V, hdec, hAe, hAn, hname, hvalue⟩ := wf_decomp hwf
    cases hg : encodeOne g with
    | none => rw [encode_cons_none_left hg] at h; cases h
    | some s =>
      rw [encode_cons_some_left hg] at h
      cases hgs : encode gs with
      | none => rw [hgs] at h; cases h
      | some rest =>
        rw [hgs] at h
        simp only [Option.map_some', Option.some_inj] at h
        subst h
        obtain ⟨fuel', rfl⟩ : ∃ fuel', fuel = fuel' + 1 := by
          cases fuel with
          | zero => simp at hfuel
          | succ j => exact ⟨j, rfl⟩
        have hfuel' : gs.length ≤ fuel' := by
          simp only [List.length_cons] at hfuel
          omega
        have ihgs := ih fuel' rest hfuel' (fun f hf => hall f (List.mem_cons_of_mem _ hf)) hgs
        by_cases hVnl : NL ∈ V
        · have hVlen : V.length < 2 ^ 64 := by
            have := hglen
            rw [hdec, List.length_append, List.length_cons] at this
            omega
          have hs : s = [A, [NL], le64 V.length, V, [NL]] := by
            have hb := encodeOne_binary hAe hAn hVnl
            rw [← hdec, hg] at hb
            exact Option.some_inj.mp hb
          subst hs
          have hshape : ([A, [NL], le64 V.length, V, [NL]] ++ rest).flatten =
              A ++ NL :: (le64 V.length ++ (V ++ NL :: rest.flatten)) := by
            simp [List.flatten, List.append_assoc]
          rw [hshape]
          have hne : A ++ NL :: (le64 V.length ++ (V ++ NL :: rest.flatten)) ≠ [] := by
            cases A <;> simp
          rw [parseRec_succ hne, parseField_binary hAe hAn hVlen rest.flatten]
          simp [ihgs, hname, hvalue]
        · have hs : s = [g, [NL]] := by
            have hb := encodeOne_simple hAe hAn hVnl
            rw [← hdec, hg] at hb
            exact Option.some_inj.mp hb
          subst hs
          have hshape : ([g, [NL]] ++ rest).flatten =
              A ++ EQB :: (V ++ NL :: rest.flatten) := by
            rw [List.flatten_append]
            simp only [List.flatten, List.append_nil]
            rw [hdec]
            simp [List.append_assoc]
          rw [hshape]
          have hne : A ++ EQB :: (V ++ NL :: rest.flatten) ≠ [] := by
            cases A <;> simp
          rw [parseRec_succ hne, parseField_simple hAe hAn hVnl rest.flatten]
          simp [ihgs, hname, hvalue]

/-- C3: a non-empty list of well-formed fields (each holding an `=` with
no NL before it, of machine-representable size) encodes successfully, and
parsing the concatenated segments by the documented wire grammar
reconstructs exactly the original names and values in the original
order, for arbitrary value bytes. -/
theorem encode_parse_roundtrip (fs : List (List Byte)) (_hne : fs ≠ [])
    (hall : ∀ f ∈ fs, wf f ∧ f.length < 2 ^ 64) :
    ∃ segs, encode fs = some segs ∧
      parse segs.flatten = some (fs.map fun f => (fieldName f, fieldValue f)) := by
  obtain ⟨segs, hsegs⟩ := encode_wf_some fun f hf => (hall f hf).1
  refine ⟨segs, hsegs, ?_⟩
  show parseRec segs.flatten.length segs.flatten = _
  exact parseRec_encode fs segs.flatten.length segs (encode_flatten_ge hsegs) hall hsegs

theorem encode_parse_roundtrip_witness :
    ∃ segs, encode [[68, 61, 97, 10, 98]] = some segs ∧
      parse segs.flatten = some [([68], [97, 10, 98])] := by
  have h := encode_parse_roundtrip [[68, 61, 97, 10, 98]] (by decide) ?_
  · obtain ⟨segs, h1, h2⟩ := h
    refine ⟨segs, h1, ?_⟩
    rw [h2]
    decide
  · intro f hf
    rw [List.mem_singleton] at hf
    subst hf
    exact ⟨⟨1, by decide, by decide⟩, by decide⟩

end JournalSend
